import Mathlib

/-!
# Verification of `allennlp/nn/initializers.py`

A shallow embedding of the initializer module: `block_orthogonal`, the
named-initializer registry, `Initializer.from_params`, and
`InitializerApplicator.__call__`, together with proofs of the specified
properties.

Tensors are modelled extensionally as total maps from index vectors
(`List Nat`) to values.  The random numeric routine
`torch.nn.init.orthogonal` is abstracted as an oracle `orth` giving, for
each block start, the values written inside that block; the claims under
verification concern block enumeration, tiling and error behaviour, which
are independent of the sampled values.
-/

/-- A tensor of element type `α`, viewed extensionally as a map from index
vectors to values. -/
def TensorF (α : Type) : Type := List Nat → α

/-- Embeds Python `range(0, stop, step)` for `step > 0`: the multiples of
`step` strictly below `stop`, in increasing order. -/
def rangeStep (stop step : Nat) : List Nat :=
  (List.range ((stop + step - 1) / step)).map (· * step)

/-- Embeds `itertools.product(*lists)`: all selections of one element per
list, in dimension-major (first list outermost) order. -/
def cartProd : List (List α) → List (List α)
  | [] => [[]]
  | l :: ls => (l.map (fun a => (cartProd ls).map (a :: ·))).flatten

/-- The divisibility check of `block_orthogonal` (line 69):
`any([a % b != 0 for a, b in zip(sizes, split_sizes)])`. -/
def divisFails (sizes split_sizes : List Nat) : Bool :=
  (sizes.zip split_sizes).any (fun ab => ab.1 % ab.2 != 0)

/-- The per-dimension block-start offset lists of `block_orthogonal`
(lines 72-73): `[list(range(0, max_size, split)) for max_size, split in
zip(sizes, split_sizes)]`. -/
def blockIndexes (sizes split_sizes : List Nat) : List (List Nat) :=
  (sizes.zip split_sizes).map (fun ms => rangeStep ms.1 ms.2)

/-- The block start tuples enumerated by `for block_start_indices in
itertools.product(*indexes)` (line 75). -/
def blockStarts (sizes split_sizes : List Nat) : List (List Nat) :=
  cartProd (blockIndexes sizes split_sizes)

/-- Membership of an index vector in the block slice
`tuple(slice(start, start + step) for start, step in
zip(block_start_indices, split_sizes))` (lines 78-85): within the zipped
dimensions the coordinate lies in `[start, start + step)`; trailing
dimensions are unconstrained, as a tuple of `k` slices indexes only the
first `k` dimensions of a tensor. -/
def inBlockB (start split_sizes idx : List Nat) : Bool :=
  ((start.zip split_sizes).zip idx).all
    (fun x => decide (x.1.1 ≤ x.2) && decide (x.2 < x.1.1 + x.1.2))

/-- Writing one block (line 86): inside the block slice the tensor takes
the values produced by the orthogonal initializer for this block, elsewhere
it is unchanged. -/
def writeBlock (orth : List Nat → List Nat → α) (split_sizes start : List Nat)
    (t : TensorF α) : TensorF α :=
  fun idx => if inBlockB start split_sizes idx then orth start idx else t idx

/-- The loop over all blocks (lines 75-86). -/
def writeBlocks (orth : List Nat → List Nat → α) (split_sizes : List Nat)
    (starts : List (List Nat)) (t : TensorF α) : TensorF α :=
  starts.foldl (fun acc s => writeBlock orth split_sizes s acc) t

/-- Embeds `block_orthogonal(tensor, split_sizes, gain)` (lines 42-86) on a
tensor with dimension sizes `sizes`.  Returns the (possibly updated) tensor
together with `some errorMessage` when the `ConfigurationError` of lines
70-71 is raised, in which case the tensor is returned untouched, and `none`
on the normal path. -/
def block_orthogonal (orth : List Nat → List Nat → α) (t : TensorF α)
    (sizes split_sizes : List Nat) : TensorF α × Option String :=
  if divisFails sizes split_sizes then
    (t, some ("tensor dimensions must be divisible by their respective " ++
      "split_sizes. Found size: " ++ toString sizes ++
      " and split_sizes: " ++ toString split_sizes))
  else
    (writeBlocks orth split_sizes (blockStarts sizes split_sizes) t, none)

/-! ## The initializer registry (lines 89-118) -/

/-- The underlying `torch.nn.init` numeric routines (plus the local
`block_orthogonal`) that the registry entries wrap.  The routines
themselves are external library code; only their identity matters here. -/
inductive TorchInitFn : Type
  | normal
  | uniform
  | orthogonal
  | constant
  | dirac
  | xavier_normal
  | xavier_uniform
  | kaiming_normal
  | kaiming_uniform
  | sparse
  | eye
  | block_orthogonal
deriving DecidableEq, Repr

/-- The wrapper class produced by `_initializer_wrapper(init_function)`
(lines 89-101): it stores the wrapped routine and the keyword arguments
given at construction.  `κ` is the type of keyword-argument dictionaries
(opaque to this module: they are passed through verbatim). -/
structure InitWrapper (κ : Type) : Type where
  init_function : TorchInitFn
  kwargs : κ
deriving DecidableEq, Repr

/-- A record of one invocation of an underlying numeric routine: which
routine was entered, on which tensor, with which keyword arguments. -/
structure TorchCall (τ κ : Type) : Type where
  fn : TorchInitFn
  tensor : τ
  kwargs : κ
deriving DecidableEq, Repr

/-- Embeds `Init.__call__` (lines 94-95): `self._init_function(tensor,
**self._kwargs)` — forwards the tensor and the bound keyword arguments to
the wrapped routine. -/
def InitWrapper.call (w : InitWrapper κ) (tensor : τ) : TorchCall τ κ :=
  ⟨w.init_function, tensor, w.kwargs⟩

/-- The registry contents installed into `Registrable._registry[Initializer]`
(lines 105-118), keyed by name in source order. -/
def initializerRegistry : List (String × TorchInitFn) :=
  [ ("normal", TorchInitFn.normal),
    ("uniform", TorchInitFn.uniform),
    ("orthogonal", TorchInitFn.orthogonal),
    ("constant", TorchInitFn.constant),
    ("dirac", TorchInitFn.dirac),
    ("xavier_normal", TorchInitFn.xavier_normal),
    ("xavier_uniform", TorchInitFn.xavier_uniform),
    ("kaiming_normal", TorchInitFn.kaiming_normal),
    ("kaiming_uniform", TorchInitFn.kaiming_uniform),
    ("sparse", TorchInitFn.sparse),
    ("eye", TorchInitFn.eye),
    ("block_orthogonal", TorchInitFn.block_orthogonal) ]

/-- Modelled from the spec: `Registrable.list_available` (from
`allennlp.common.Registrable`, not under `src/`) lists the registered
names for a class. -/
def list_available : List String := initializerRegistry.map Prod.fst

/-- Modelled from the spec: `Registrable.by_name` (from
`allennlp.common.Registrable`, not under `src/`) resolves a name in the
registry; per the spec, an unknown initializer name at construction time
is a configuration error, fatal to that construction path. -/
def by_name (name : String) : Except String TorchInitFn :=
  match initializerRegistry.lookup name with
  | some fn => Except.ok fn
  | none => Except.error (name ++ " is not a registered name")

/-- Modelled from the spec: `Params.pop_choice` (from
`allennlp.common.params`, not under `src/`) pops the given key and fails
with a configuration error when the popped value is not among the
offered choices. -/
def pop_choice (value : String) (choices : List String) : Except String String :=
  if value ∈ choices then Except.ok value
  else Except.error (value ++ " not in acceptable choices")

/-- The parameter payloads accepted by `Initializer.from_params` (lines
32-39): either a bare string naming an initializer, or a structured spec
whose `type` field names the initializer and whose remaining fields `κ`
are keyword arguments. -/
inductive InitParams (κ : Type) : Type
  | str (name : String)
  | dict (type : String) (kwargs : κ)

/-- Embeds `Initializer.from_params` (lines 32-39): a bare string resolves via
`by_name` and constructs with no keyword arguments; a structured spec pops
its `type` via `pop_choice` against `list_available`, resolves it via
`by_name`, and constructs via the wrapper's `from_params` (lines 98-100),
which binds the remaining fields as keyword arguments. -/
def from_params (emptyKwargs : κ) : InitParams κ → Except String (InitWrapper κ)
  | InitParams.str name => (by_name name).map (fun fn => ⟨fn, emptyKwargs⟩)
  | InitParams.dict ty kwargs => do
      let choice ← pop_choice ty list_available
      let fn ← by_name choice
      pure ⟨fn, kwargs⟩

/-! ## `InitializerApplicator` (lines 121-166)

The applicator is parametric in the regex matcher `matches pattern name`,
the embedding of the Python standard-library call
`re.search(initializer_regex, name)` (line 154): a Boolean function of the
pattern and the parameter name.  Initializers are modelled by their effect
on a parameter value (`T → T`), matching the in-place mutation of the
source.  A module is its list of named parameters, in iteration order. -/

/-- The inner loop of `__call__` (lines 153-158): scan the
`(regex, initializer)` pairs in order and return the index, pattern and
initializer of the first pair whose pattern matches the name, or `none`
when the loop falls through to its `else` clause. -/
def firstMatch (reSearch : String → String → Bool)
    (pairs : List (String × (T → T))) (name : String) :
    Option (Nat × String × (T → T)) :=
  match pairs with
  | [] => none
  | (pat, f) :: rest =>
    if reSearch pat name then some (0, pat, f)
    else (firstMatch reSearch rest name).map (fun r => (r.1 + 1, r.2))

/-- The observable state built up by `__call__`: the parameters after the
call (in iteration order), the invocations `(name, pair index)` performed,
the `unused_regexes` set, and the `uninitialized_parameters` set.  The two
Python sets are modelled as lists without duplicates: `unused` starts from
the deduplicated pattern list and `uninitialized` collects distinct
parameter names. -/
structure ApplyState (T : Type) : Type where
  params : List (String × T)
  invocations : List (String × Nat)
  unused : List String
  uninitialized : List String

/-- The body of the outer loop of `__call__` (lines 152-160) for one named
parameter: invoke the initializer of the first matching pair, record the
invocation, and discard the fired pattern from `unused_regexes`; with no
match, leave the parameter untouched and add its name to
`uninitialized_parameters`. -/
def applyOne (reSearch : String → String → Bool)
    (pairs : List (String × (T → T))) (st : ApplyState T) (p : String × T) :
    ApplyState T :=
  match firstMatch reSearch pairs p.1 with
  | some r =>
    { params := st.params ++ [(p.1, r.2.2 p.2)],
      invocations := st.invocations ++ [(p.1, r.1)],
      unused := st.unused.filter (fun q => q != r.2.1),
      uninitialized := st.uninitialized }
  | none =>
    { params := st.params ++ [(p.1, p.2)],
      invocations := st.invocations,
      unused := st.unused,
      uninitialized := st.uninitialized ++ [p.1] }

/-- Embeds `InitializerApplicator.__call__` (lines 138-166): iterate over the
module's named parameters, starting with
`unused_regexes = set(pattern strings)` (line 149). -/
def applicatorCall (reSearch : String → String → Bool)
    (pairs : List (String × (T → T))) (module : List (String × T)) :
    ApplyState T :=
  module.foldl (applyOne reSearch pairs)
    ⟨[], [], (pairs.map Prod.fst).dedup, []⟩

/-- Embeds `re.search` restricted to regexes without metacharacters: the pattern
matches anywhere within the name, i.e. it occurs as a contiguous
substring. -/
def searchSubstring (pattern name : String) : Bool :=
  name.toList.tails.any (fun suffix => pattern.toList.isPrefixOf suffix)

/-- Structural form of block membership: the first `start.length`
coordinates lie in their respective `[start, start + split)` slices. -/
def fits : List Nat → List Nat → List Nat → Prop
  | [], _, _ => True
  | s :: ss, sp :: sps, x :: xs => s ≤ x ∧ x < s + sp ∧ fits ss sps xs
  | _ :: _, _, _ => False

/-! ## Characterization of the applicator loop -/

/-- The update `__call__` performs on one named parameter: the first
matching pair's initializer applied to its value, or the parameter
unchanged when no pattern matches. -/
def withInit (reSearch : String → String → Bool)
    (pairs : List (String × (T → T))) (p : String × T) : String × T :=
  match firstMatch reSearch pairs p.1 with
  | some r => (p.1, r.2.2 p.2)
  | none => p

/-- The invocation record `(name, pair index)` for one named parameter,
when any pattern matches. -/
def invOf (reSearch : String → String → Bool)
    (pairs : List (String × (T → T))) (p : String × T) : Option (String × Nat) :=
  (firstMatch reSearch pairs p.1).map (fun r => (p.1, r.1))

/-- The pattern strings that fire over a module, in parameter order. -/
def firedPats (reSearch : String → String → Bool)
    (pairs : List (String × (T → T))) (module : List (String × T)) :
    List String :=
  module.filterMap (fun p => (firstMatch reSearch pairs p.1).map (fun r => r.2.1))

/-- The names of parameters matched by no pattern, in parameter order. -/
def unmatchedNames (reSearch : String → String → Bool)
    (pairs : List (String × (T → T))) (module : List (String × T)) :
    List String :=
  module.filterMap (fun p =>
    match firstMatch reSearch pairs p.1 with
    | some _ => none
    | none => some p.1)

theorem foldl_applyOne_spec (reSearch : String → String → Bool)
    (pairs : List (String × (T → T))) :
    ∀ (module : List (String × T)) (st : ApplyState T),
    module.foldl (applyOne reSearch pairs) st =
      ⟨st.params ++ module.map (withInit reSearch pairs),
       st.invocations ++ module.filterMap (invOf reSearch pairs),
       st.unused.filter
         (fun q => !((firedPats reSearch pairs module).contains q)),
       st.uninitialized ++ unmatchedNames reSearch pairs module⟩ := by
  intro module
  induction module with
  | nil =>
    intro st
    simp [firedPats, unmatchedNames]
  | cons p rest ih =>
    intro st
    rw [List.foldl_cons, ih]
    cases hfm : firstMatch reSearch pairs p.1 with
    | none =>
      simp [applyOne, hfm, withInit, invOf, firedPats, unmatchedNames,
        List.append_assoc]
    | some r =>
      simp only [applyOne, hfm, withInit, invOf, firedPats, unmatchedNames,
        List.filterMap_cons, List.map_cons, Option.map_some,
        List.append_assoc, List.cons_append, List.nil_append,
        List.singleton_append, ApplyState.mk.injEq]
      refine ⟨?_, ?_, ?_, ?_⟩
      · trivial
      · trivial
      · rw [List.filter_filter]
        apply List.filter_congr
        intro a _
        simp [List.contains_cons, Bool.and_comm, bne]
      · trivial

theorem applicatorCall_params (reSearch : String → String → Bool)
    (pairs : List (String × (T → T))) (module : List (String × T)) :
    (applicatorCall reSearch pairs module).params =
      module.map (withInit reSearch pairs) := by
  rw [applicatorCall, foldl_applyOne_spec]
  simp

theorem applicatorCall_invocations (reSearch : String → String → Bool)
    (pairs : List (String × (T → T))) (module : List (String × T)) :
    (applicatorCall reSearch pairs module).invocations =
      module.filterMap (invOf reSearch pairs) := by
  rw [applicatorCall, foldl_applyOne_spec]
  simp

theorem applicatorCall_unused (reSearch : String → String → Bool)
    (pairs : List (String × (T → T))) (module : List (String × T)) :
    (applicatorCall reSearch pairs module).unused =
      ((pairs.map Prod.fst).dedup).filter
        (fun q => !((firedPats reSearch pairs module).contains q)) := by
  rw [applicatorCall, foldl_applyOne_spec]

theorem applicatorCall_uninitialized (reSearch : String → String → Bool)
    (pairs : List (String × (T → T))) (module : List (String × T)) :
    (applicatorCall reSearch pairs module).uninitialized =
      unmatchedNames reSearch pairs module := by
  rw [applicatorCall, foldl_applyOne_spec]
  simp

theorem firstMatch_eq_some (reSearch : String → String → Bool)
    (pairs : List (String × (T → T))) (name : String)
    (i : Nat) (pat : String) (f : T → T)
    (h : firstMatch reSearch pairs name = some (i, pat, f)) :
    ∃ hi : i < pairs.length,
      pairs.get ⟨i, hi⟩ = (pat, f) ∧ reSearch pat name = true ∧
      ∀ j (hj : j < pairs.length), j < i →
        reSearch (pairs.get ⟨j, hj⟩).1 name = false := by
  induction pairs generalizing i with
  | nil => simp [firstMatch] at h
  | cons hd tl ih =>
    obtain ⟨pt, g⟩ := hd
    simp only [firstMatch] at h
    by_cases hm : reSearch pt name
    · rw [if_pos hm] at h
      have h' := Option.some.inj h
      have hi0 : (0 : Nat) = i := congrArg Prod.fst h'
      have hpt : pt = pat := congrArg (fun x => x.2.1) h'
      have hg : g = f := congrArg (fun x => x.2.2) h'
      subst hi0 hpt hg
      refine ⟨Nat.succ_pos _, rfl, hm, ?_⟩
      intro j hj hji
      omega
    · rw [if_neg hm] at h
      cases hr : firstMatch reSearch tl name with
      | none => rw [hr] at h; simp at h
      | some r =>
        rw [hr] at h
        simp only [Option.map_some'] at h
        have h' := Option.some.inj h
        have hi1 : r.1 + 1 = i := congrArg Prod.fst h'
        have hr2 : r.2 = (pat, f) := congrArg Prod.snd h'
        have hfm : firstMatch reSearch tl name = some (r.1, pat, f) := by
          rw [hr, ← hr2]
        obtain ⟨hlt, hget, hsearch, hbefore⟩ := ih r.1 hfm
        subst hi1
        refine ⟨by simpa using Nat.succ_lt_succ hlt, by simpa using hget,
          hsearch, ?_⟩
        intro j hj hji
        cases j with
        | zero => simpa using hm
        | succ j' =>
          have := hbefore j' (by simpa using hj) (by omega)
          simpa using this

/-! ## Block enumeration lemmas -/

theorem mem_rangeStep (stop step x : Nat) (hstep : 0 < step)
    (hdvd : step ∣ stop) :
    x ∈ rangeStep stop step ↔ step ∣ x ∧ x < stop := by
  obtain ⟨c, rfl⟩ := hdvd
  have hceil : (step * c + step - 1) / step = c := by
    rw [Nat.add_sub_assoc (by omega), Nat.mul_add_div hstep,
      Nat.div_eq_of_lt (by omega)]
    omega
  simp only [rangeStep, hceil, List.mem_map, List.mem_range]
  constructor
  · rintro ⟨k, hk, rfl⟩
    exact ⟨Dvd.intro_left _ rfl, by
      calc k * step < c * step := (Nat.mul_lt_mul_right hstep).mpr hk
        _ = step * c := Nat.mul_comm _ _⟩
  · rintro ⟨⟨m, rfl⟩, hlt⟩
    refine ⟨m, ?_, Nat.mul_comm _ _⟩
    have := Nat.lt_of_mul_lt_mul_left hlt
    exact this

theorem rangeStep_sorted (stop step : Nat) (hstep : 0 < step) :
    List.Pairwise (· < ·) (rangeStep stop step) :=
  List.Pairwise.map (· * step)
    (fun _ _ hab => (Nat.mul_lt_mul_right hstep).mpr hab)
    (List.pairwise_lt_range _)

theorem rangeStep_unique_cover (stop step x : Nat) (hstep : 0 < step)
    (hdvd : step ∣ stop) (hx : x < stop) :
    ∃! s, s ∈ rangeStep stop step ∧ s ≤ x ∧ x < s + step := by
  have hmod := Nat.div_add_mod x step
  have hlt := Nat.mod_lt x hstep
  refine ⟨step * (x / step), ⟨?_, by omega, by omega⟩, ?_⟩
  · rw [mem_rangeStep _ _ _ hstep hdvd]
    exact ⟨Dvd.intro _ rfl, by omega⟩
  · rintro y ⟨hymem, hyle, hylt⟩
    obtain ⟨⟨m, rfl⟩, -⟩ := (mem_rangeStep _ _ _ hstep hdvd).mp hymem
    have : x / step = m := by
      apply Nat.div_eq_of_lt_le
      · calc m * step = step * m := Nat.mul_comm _ _
          _ ≤ x := hyle
      · calc x < step * m + step := hylt
          _ = (m + 1) * step := by ring
    rw [this]

theorem mem_cartProd {α : Type} :
    ∀ (ls : List (List α)) (l : List α),
    l ∈ cartProd ls ↔ List.Forall₂ (fun x xs => x ∈ xs) l ls := by
  intro ls
  induction ls with
  | nil =>
    intro l
    constructor
    · intro h
      simp [cartProd] at h
      subst h
      exact List.Forall₂.nil
    · intro h
      cases h
      simp [cartProd]
  | cons xs rest ih =>
    intro l
    simp only [cartProd, List.mem_flatten, List.mem_map]
    constructor
    · rintro ⟨sub, ⟨a, ha, rfl⟩, hmem⟩
      obtain ⟨t, ht, rfl⟩ := List.mem_map.mp hmem
      exact List.Forall₂.cons ha ((ih t).mp ht)
    · intro h
      cases h with
      | cons hx ht =>
        exact ⟨_, ⟨_, hx, rfl⟩, List.mem_map.mpr ⟨_, (ih _).mpr ht, rfl⟩⟩

theorem length_of_mem_cartProd {α : Type} (ls : List (List α)) (l : List α)
    (h : l ∈ cartProd ls) : l.length = ls.length :=
  ((mem_cartProd ls l).mp h).length_eq

theorem cartProd_pairwise_lex :
    ∀ (ls : List (List Nat)), (∀ l ∈ ls, List.Pairwise (· < ·) l) →
    List.Pairwise (List.Lex (· < ·)) (cartProd ls) := by
  intro ls
  induction ls with
  | nil => intro _; simp [cartProd]
  | cons xs rest ih =>
    intro h
    rw [cartProd]
    rw [List.pairwise_flatten]
    refine ⟨?_, ?_⟩
    · intro l hl
      obtain ⟨a, _, rfl⟩ := List.mem_map.mp hl
      rw [List.pairwise_map]
      exact (ih (fun l hl => h l (List.mem_cons_of_mem _ hl))).imp
        (fun hlt => List.Lex.cons hlt)
    · rw [List.pairwise_map]
      have hxs : List.Pairwise (· < ·) xs := h xs (List.mem_cons_self _ _)
      apply hxs.imp_of_mem
      intro a b _ _ hab
      intro u hu v hv
      obtain ⟨tu, _, rfl⟩ := List.mem_map.mp hu
      obtain ⟨tv, _, rfl⟩ := List.mem_map.mp hv
      exact List.Lex.rel hab

theorem inBlockB_iff_fits :
    ∀ (start split_sizes idx : List Nat),
    start.length ≤ split_sizes.length → start.length ≤ idx.length →
    (inBlockB start split_sizes idx = true ↔ fits start split_sizes idx) := by
  intro start
  induction start with
  | nil => intro sps idx _ _; simp [inBlockB, fits]
  | cons s ss ih =>
    intro sps idx h1 h2
    cases sps with
    | nil => simp at h1
    | cons sp sps' =>
      cases idx with
      | nil => simp at h2
      | cons x xs =>
        simp only [inBlockB, List.zip_cons_cons, List.all_cons, fits,
          Bool.and_eq_true, decide_eq_true_eq]
        rw [← inBlockB]
        rw [ih sps' xs (by simpa using h1) (by simpa using h2)]
        constructor
        · rintro ⟨⟨ha, hb⟩, hc⟩; exact ⟨ha, hb, hc⟩
        · rintro ⟨ha, hb, hc⟩; exact ⟨⟨ha, hb⟩, hc⟩

theorem cartProd_unique_fits :
    ∀ (dims : List (Nat × Nat)) (idx : List Nat),
    (∀ p ∈ dims, 0 < p.2) → (∀ p ∈ dims, p.2 ∣ p.1) →
    List.Forall₂ (fun x p => x < p.1) idx dims →
    ∃! start, start ∈ cartProd (dims.map (fun p => rangeStep p.1 p.2)) ∧
      fits start (dims.map Prod.snd) idx := by
  intro dims
  induction dims with
  | nil =>
    intro idx _ _ hf
    cases hf
    refine ⟨[], ⟨by simp [cartProd], trivial⟩, ?_⟩
    rintro y ⟨hy, -⟩
    simpa [cartProd] using hy
  | cons d rest ih =>
    intro idx hpos hdvd hf
    cases hf with
    | cons hx hrest =>
      rename_i x xs
      obtain ⟨s₀, ⟨hs₀mem, hs₀le, hs₀lt⟩, hs₀uniq⟩ :=
        rangeStep_unique_cover d.1 d.2 x (hpos d (by simp)) (hdvd d (by simp)) hx
      obtain ⟨t₀, ⟨ht₀mem, ht₀fits⟩, ht₀uniq⟩ :=
        ih xs (fun p hp => hpos p (List.mem_cons_of_mem _ hp))
          (fun p hp => hdvd p (List.mem_cons_of_mem _ hp)) hrest
      refine ⟨s₀ :: t₀, ⟨?_, ?_⟩, ?_⟩
      · rw [List.map_cons, mem_cartProd]
        exact List.Forall₂.cons hs₀mem ((mem_cartProd _ _).mp ht₀mem)
      · exact ⟨hs₀le, hs₀lt, ht₀fits⟩
      · rintro y ⟨hymem, hyfits⟩
        rw [List.map_cons, mem_cartProd] at hymem
        cases hymem with
        | cons ha ht =>
          rename_i a t
          obtain ⟨h1, h2, h3⟩ := hyfits
          have ha' : a = s₀ := hs₀uniq a ⟨ha, h1, h2⟩
          have ht' : t = t₀ := ht₀uniq t ⟨(mem_cartProd _ _).mpr ht, h3⟩
          rw [ha', ht']

theorem forall₂_lt_zip :
    ∀ (idx sizes split_sizes : List Nat), sizes.length = split_sizes.length →
    List.Forall₂ (· < ·) idx sizes →
    List.Forall₂ (fun x p => x < p.1) idx (sizes.zip split_sizes) := by
  intro idx sizes split_sizes hlen hf
  induction hf generalizing split_sizes with
  | nil =>
    cases split_sizes with
    | nil => exact List.Forall₂.nil
    | cons _ _ => simp at hlen
  | cons h hrest ihh =>
    cases split_sizes with
    | nil => simp at hlen
    | cons sp sps =>
      rw [List.zip_cons_cons]
      exact List.Forall₂.cons h (ihh sps (by simpa using hlen))

theorem forall₂_mem_rangeStep :
    ∀ (dims : List (Nat × Nat)) (start : List Nat),
    (∀ p ∈ dims, 0 < p.2) → (∀ p ∈ dims, p.2 ∣ p.1) →
    List.Forall₂ (fun s p => s ∈ rangeStep p.1 p.2) start dims →
    List.Forall₂ (fun s p => p.2 ∣ s ∧ s < p.1) start dims := by
  intro dims
  induction dims with
  | nil => intro start _ _ h; cases h; exact List.Forall₂.nil
  | cons d rest ih =>
    intro start hpos hdvd h
    cases h with
    | cons hs hrest =>
      exact List.Forall₂.cons
        ((mem_rangeStep _ _ _ (hpos d (by simp)) (hdvd d (by simp))).mp hs)
        (ih _ (fun p hp => hpos p (List.mem_cons_of_mem _ hp))
          (fun p hp => hdvd p (List.mem_cons_of_mem _ hp)) hrest)

/-- Claim C3: when every zipped dimension size is evenly divisible by its
split size, `block_orthogonal` enumerates blocks as the Cartesian product,
in dimension order, of the per-dimension offset sequences (each block start
has offsets that are multiples of the split and below the size), visits
them in strictly increasing lexicographic (dimension-major) order, and the
blocks partition the index space exactly: every valid index vector lies in
exactly one block. -/
theorem C3_blocks_tile (sizes split_sizes : List Nat)
    (hlen : sizes.length = split_sizes.length)
    (hpos : ∀ s ∈ split_sizes, 0 < s)
    (hdvd : ∀ p ∈ sizes.zip split_sizes, p.1 % p.2 = 0) :
    (∀ idx, List.Forall₂ (· < ·) idx sizes →
      ∃! start, start ∈ blockStarts sizes split_sizes ∧
        inBlockB start split_sizes idx = true) ∧
    List.Pairwise (List.Lex (· < ·)) (blockStarts sizes split_sizes) ∧
    (∀ start ∈ blockStarts sizes split_sizes,
      List.Forall₂ (fun s p => p.2 ∣ s ∧ s < p.1) start
        (sizes.zip split_sizes)) := by
  have hposd : ∀ p ∈ sizes.zip split_sizes, 0 < p.2 :=
    fun p hp => hpos p.2 (List.of_mem_zip hp).2
  have hdvdd : ∀ p ∈ sizes.zip split_sizes, p.2 ∣ p.1 :=
    fun p hp => Nat.dvd_of_mod_eq_zero (hdvd p hp)
  have hsnd : (sizes.zip split_sizes).map Prod.snd = split_sizes :=
    List.map_snd_zip _ _ (le_of_eq hlen.symm)
  refine ⟨?_, ?_, ?_⟩
  · intro idx hidx
    have hzlt := forall₂_lt_zip idx sizes split_sizes hlen hidx
    have hEU := cartProd_unique_fits (sizes.zip split_sizes) idx hposd hdvdd hzlt
    rw [hsnd] at hEU
    refine (existsUnique_congr ?_).mp hEU
    intro start
    have hiff : start ∈ blockStarts sizes split_sizes →
        (fits start split_sizes idx ↔ inBlockB start split_sizes idx = true) := by
      intro hmem
      have hlens : start.length = split_sizes.length := by
        have := length_of_mem_cartProd _ _ hmem
        simp only [blockIndexes, List.length_map, List.length_zip] at this
        omega
      have hleni : start.length ≤ idx.length := by
        have := hidx.length_eq
        omega
      exact (inBlockB_iff_fits start split_sizes idx (le_of_eq hlens) hleni).symm
    constructor
    · rintro ⟨hmem, hfit⟩
      exact ⟨hmem, (hiff hmem).mp hfit⟩
    · rintro ⟨hmem, hblk⟩
      exact ⟨hmem, (hiff hmem).mpr hblk⟩
  · apply cartProd_pairwise_lex
    intro l hl
    simp only [blockIndexes, List.mem_map] at hl
    obtain ⟨p, hp, rfl⟩ := hl
    exact rangeStep_sorted _ _ (hposd p hp)
  · intro start hstart
    have f2 := (mem_cartProd _ _).mp hstart
    simp only [blockIndexes] at f2
    rw [List.forall₂_map_right_iff] at f2
    exact forall₂_mem_rangeStep _ _ hposd hdvdd f2

/-- Claim C2: when some zipped dimension size is not divisible by its
split size, `block_orthogonal` raises the configuration error whose
message names the actual sizes and the requested split sizes, and returns
the tensor completely unmutated: the check precedes every block write. -/
theorem C2_indivisible_error {α : Type} (orth : List Nat → List Nat → α)
    (t : TensorF α) (sizes split_sizes : List Nat)
    (hfail : ∃ p ∈ sizes.zip split_sizes, p.1 % p.2 ≠ 0) :
    block_orthogonal orth t sizes split_sizes =
      (t, some ("tensor dimensions must be divisible by their respective " ++
        "split_sizes. Found size: " ++ toString sizes ++
        " and split_sizes: " ++ toString split_sizes)) := by
  have hv : divisFails sizes split_sizes = true := by
    obtain ⟨p, hp, hne⟩ := hfail
    refine List.any_eq_true.mpr ⟨p, hp, ?_⟩
    simpa using hne
  simp [block_orthogonal, hv]

theorem C2_indivisible_error_witness :
    (∃ p ∈ ([3] : List Nat).zip [2], p.1 % p.2 ≠ 0) ∧
    block_orthogonal (fun _ _ => (0 : Nat)) (fun _ => 0) [3] [2] =
      ((fun _ => 0),
       some ("tensor dimensions must be divisible by their respective " ++
        "split_sizes. Found size: " ++ toString ([3] : List Nat) ++
        " and split_sizes: " ++ toString ([2] : List Nat))) :=
  ⟨by decide, C2_indivisible_error (fun _ _ => 0) (fun _ => 0) [3] [2] (by decide)⟩

theorem C3_blocks_tile_witness :
    (([4, 2] : List Nat).length = ([2, 2] : List Nat).length ∧
     (∀ s ∈ ([2, 2] : List Nat), 0 < s) ∧
     (∀ p ∈ ([4, 2] : List Nat).zip [2, 2], p.1 % p.2 = 0)) ∧
    ((∀ idx, List.Forall₂ (· < ·) idx [4, 2] →
      ∃! start, start ∈ blockStarts [4, 2] [2, 2] ∧
        inBlockB start [2, 2] idx = true) ∧
    List.Pairwise (List.Lex (· < ·)) (blockStarts [4, 2] [2, 2]) ∧
    (∀ start ∈ blockStarts [4, 2] [2, 2],
      List.Forall₂ (fun s p => p.2 ∣ s ∧ s < p.1) start
        (([4, 2] : List Nat).zip [2, 2]))) :=
  ⟨⟨by decide, by decide, by decide⟩,
   C3_blocks_tile [4, 2] [2, 2] (by decide) (by decide) (by decide)⟩

theorem zip_take_right {α β : Type} : ∀ (l : List α) (xs : List β),
    l.zip xs = l.zip (xs.take l.length) := by
  intro l
  induction l with
  | nil => intro xs; simp
  | cons a l' ih =>
    intro xs
    cases xs with
    | nil => simp
    | cons x xs' => simp [List.zip_cons_cons, ih xs']

theorem zip_take_left {α β : Type} : ∀ (l : List α) (xs : List β),
    l.zip xs = (l.take xs.length).zip xs := by
  intro l
  induction l with
  | nil => intro xs; simp
  | cons a l' ih =>
    intro xs
    cases xs with
    | nil => simp
    | cons x xs' => simp [List.zip_cons_cons, ih xs']

/-- Claim C9: when the tensor has more dimensions than `split_sizes` has
entries, no length-mismatch error is raised: the call completes normally
(provided the zipped dimensions are divisible), the divisibility check and
the block-start enumeration silently depend only on the first
`split_sizes.length` dimensions (zip truncation), and each block's slice
constrains only those leading coordinates — any two index vectors agreeing
on them lie in the same blocks, so blocks span the trailing dimensions in
their entirety. -/
theorem C9_extra_dims {α : Type} (orth : List Nat → List Nat → α)
    (t : TensorF α) (sizes split_sizes : List Nat)
    (hlonger : split_sizes.length < sizes.length)
    (hdvd : ∀ p ∈ sizes.zip split_sizes, p.1 % p.2 = 0) :
    (block_orthogonal orth t sizes split_sizes).2 = none ∧
    divisFails sizes split_sizes =
      divisFails (sizes.take split_sizes.length) split_sizes ∧
    blockStarts sizes split_sizes =
      blockStarts (sizes.take split_sizes.length) split_sizes ∧
    (∀ start ∈ blockStarts sizes split_sizes,
      start.length = split_sizes.length) ∧
    (∀ start ∈ blockStarts sizes split_sizes, ∀ idx idx' : List Nat,
      idx.take split_sizes.length = idx'.take split_sizes.length →
      inBlockB start split_sizes idx = inBlockB start split_sizes idx') := by
  have hok : divisFails sizes split_sizes = false := by
    apply List.any_eq_false.mpr
    intro p hp
    simpa using hdvd p hp
  have hlens : ∀ start ∈ blockStarts sizes split_sizes,
      start.length = split_sizes.length := by
    intro start hstart
    have := length_of_mem_cartProd _ _ hstart
    simp only [blockIndexes, List.length_map, List.length_zip] at this
    omega
  refine ⟨by simp [block_orthogonal, hok], ?_, ?_, hlens, ?_⟩
  · simp only [divisFails]
    rw [← zip_take_left]
  · simp only [blockStarts, blockIndexes]
    rw [← zip_take_left]
  · intro start hstart idx idx' htake
    have hzlen : (start.zip split_sizes).length = split_sizes.length := by
      rw [List.length_zip, hlens start hstart]
      omega
    simp only [inBlockB]
    rw [zip_take_right (start.zip split_sizes) idx,
      zip_take_right (start.zip split_sizes) idx', hzlen, htake]

theorem C9_extra_dims_witness :
    (([2] : List Nat).length < ([2, 3] : List Nat).length ∧
     (∀ p ∈ ([2, 3] : List Nat).zip [2], p.1 % p.2 = 0)) ∧
    ((block_orthogonal (fun _ _ => (0 : Nat)) (fun _ => 0) [2, 3] [2]).2 =
        none ∧
    divisFails [2, 3] [2] = divisFails (([2, 3] : List Nat).take 1) [2] ∧
    blockStarts [2, 3] [2] = blockStarts (([2, 3] : List Nat).take 1) [2] ∧
    (∀ start ∈ blockStarts [2, 3] [2], start.length = 1) ∧
    (∀ start ∈ blockStarts [2, 3] [2], ∀ idx idx' : List Nat,
      idx.take 1 = idx'.take 1 →
      inBlockB start [2] idx = inBlockB start [2] idx')) :=
  ⟨⟨by decide, by decide⟩,
   C9_extra_dims (fun _ _ => 0) (fun _ => 0) [2, 3] [2] (by decide) (by decide)⟩

theorem firstMatch_eq_none (reSearch : String → String → Bool)
    (pairs : List (String × (T → T))) (name : String) :
    firstMatch reSearch pairs name = none ↔
      ∀ pr ∈ pairs, reSearch pr.1 name = false := by
  induction pairs with
  | nil => simp [firstMatch]
  | cons hd tl ih =>
    obtain ⟨pt, g⟩ := hd
    by_cases hm : reSearch pt name
    · simp [firstMatch, hm]
    · simp only [firstMatch, if_neg hm, Option.map_eq_none', ih,
        List.forall_mem_cons]
      constructor
      · intro h
        exact ⟨by simpa using hm, h⟩
      · intro h
        exact h.2

theorem firstMatch_le (reSearch : String → String → Bool)
    (pairs : List (String × (T → T))) (name : String) (j : Nat)
    (hj : j < pairs.length)
    (hmatch : reSearch (pairs.get ⟨j, hj⟩).1 name = true) :
    ∃ r, firstMatch reSearch pairs name = some r ∧ r.1 ≤ j := by
  induction pairs generalizing j with
  | nil => simp at hj
  | cons hd tl ih =>
    obtain ⟨pt, g⟩ := hd
    by_cases hm : reSearch pt name
    · exact ⟨(0, pt, g), by simp [firstMatch, hm], Nat.zero_le _⟩
    · cases j with
      | zero => exact absurd hmatch (by simpa using hm)
      | succ j' =>
        obtain ⟨r, hr, hle⟩ := ih j' (by simpa using hj) (by simpa using hmatch)
        refine ⟨(r.1 + 1, r.2), ?_, by omega⟩
        simp [firstMatch, hm, hr]

theorem firstMatch_of_first (reSearch : String → String → Bool)
    (pairs : List (String × (T → T))) (name : String) (i : Nat)
    (hi : i < pairs.length)
    (hmatch : reSearch (pairs.get ⟨i, hi⟩).1 name = true)
    (hbefore : ∀ j (hj : j < pairs.length), j < i →
      reSearch (pairs.get ⟨j, hj⟩).1 name = false) :
    firstMatch reSearch pairs name =
      some (i, (pairs.get ⟨i, hi⟩).1, (pairs.get ⟨i, hi⟩).2) := by
  obtain ⟨r, hr, hle⟩ := firstMatch_le reSearch pairs name i hi hmatch
  obtain ⟨hlt, hget, hsearch, -⟩ :=
    firstMatch_eq_some reSearch pairs name r.1 r.2.1 r.2.2 (by rw [hr])
  have hri : r.1 = i := by
    by_contra hne
    have hrlt : r.1 < i := by omega
    have hfalse := hbefore r.1 hlt hrlt
    rw [hget] at hfalse
    rw [hsearch] at hfalse
    exact Bool.noConfusion hfalse
  subst hri
  have e2 : pairs.get ⟨r.1, hi⟩ = pairs.get ⟨r.1, hlt⟩ := rfl
  rw [hr, e2, hget]

/-- Claim C1: for a parameter of the module and the first pair (in
construction order) whose pattern matches its name, `__call__` invokes
exactly that pair's initializer on the parameter: the invocation at that
pair index is recorded, no other pair index is ever invoked for that
name — even if later patterns also match — and the parameter's resulting
value is the first matching pair's initializer applied to it. -/
theorem C1_first_match_wins (reSearch : String → String → Bool)
    (pairs : List (String × (T → T))) (module : List (String × T))
    (name : String) (t : T) (i : Nat) (hi : i < pairs.length)
    (hmem : (name, t) ∈ module)
    (hmatch : reSearch (pairs.get ⟨i, hi⟩).1 name = true)
    (hfirst : ∀ j (hj : j < pairs.length), j < i →
      reSearch (pairs.get ⟨j, hj⟩).1 name = false) :
    (name, i) ∈ (applicatorCall reSearch pairs module).invocations ∧
    (∀ j, (name, j) ∈ (applicatorCall reSearch pairs module).invocations →
      j = i) ∧
    (name, (pairs.get ⟨i, hi⟩).2 t) ∈
      (applicatorCall reSearch pairs module).params := by
  have hfm := firstMatch_of_first reSearch pairs name i hi hmatch hfirst
  rw [applicatorCall_invocations, applicatorCall_params]
  refine ⟨?_, ?_, ?_⟩
  · exact List.mem_filterMap.mpr ⟨(name, t), hmem, by simp [invOf, hfm]⟩
  · intro j hj
    obtain ⟨p, hp, hinv⟩ := List.mem_filterMap.mp hj
    simp only [invOf] at hinv
    cases hfm' : firstMatch reSearch pairs p.1 with
    | none => rw [hfm'] at hinv; simp at hinv
    | some r =>
      rw [hfm'] at hinv
      simp only [Option.map_some', Option.some.injEq] at hinv
      have hp1 : p.1 = name := congrArg Prod.fst hinv
      have hr1 : r.1 = j := congrArg Prod.snd hinv
      rw [hp1, hfm] at hfm'
      have : (i, (pairs.get ⟨i, hi⟩).1, (pairs.get ⟨i, hi⟩).2) = r :=
        Option.some.inj hfm'
      rw [← hr1, ← this]
  · exact List.mem_map.mpr ⟨(name, t), hmem, by simp [withInit, hfm]⟩

theorem C1_first_match_wins_witness :
    ((("layer.bias", 5) ∈ [("layer.bias", (5 : Nat)), ("layer.weight", 7)]) ∧
     searchSubstring
       (([("ias", fun t : Nat => t + 100), ("bias", fun t => t + 1)].get
         ⟨0, by decide⟩).1) "layer.bias" = true) ∧
    ((("layer.bias", 0) ∈
      (applicatorCall searchSubstring
        [("ias", fun t : Nat => t + 100), ("bias", fun t => t + 1)]
        [("layer.bias", 5), ("layer.weight", 7)]).invocations) ∧
    (∀ j, ("layer.bias", j) ∈
      (applicatorCall searchSubstring
        [("ias", fun t : Nat => t + 100), ("bias", fun t => t + 1)]
        [("layer.bias", 5), ("layer.weight", 7)]).invocations → j = 0) ∧
    ("layer.bias",
      (([("ias", fun t : Nat => t + 100), ("bias", fun t => t + 1)].get
        ⟨0, by decide⟩).2 5)) ∈
      (applicatorCall searchSubstring
        [("ias", fun t : Nat => t + 100), ("bias", fun t => t + 1)]
        [("layer.bias", 5), ("layer.weight", 7)]).params) :=
  ⟨⟨by decide, by decide⟩,
   C1_first_match_wins searchSubstring
     [("ias", fun t : Nat => t + 100), ("bias", fun t => t + 1)]
     [("layer.bias", 5), ("layer.weight", 7)]
     "layer.bias" 5 0 (by decide) (by decide) (by decide)
     (fun j hj hlt => absurd hlt (by omega))⟩

/-- Claim C4: a parameter whose name matches none of the applicator's
patterns is left numerically unchanged by `__call__`: it reappears in the
resulting parameters with its original value, is only recorded in the
`uninitialized_parameters` log set, and no initializer invocation is made
for its name. -/
theorem C4_unmatched_unchanged (reSearch : String → String → Bool)
    (pairs : List (String × (T → T))) (module : List (String × T))
    (name : String) (t : T)
    (hmem : (name, t) ∈ module)
    (hnomatch : ∀ pr ∈ pairs, reSearch pr.1 name = false) :
    (name, t) ∈ (applicatorCall reSearch pairs module).params ∧
    name ∈ (applicatorCall reSearch pairs module).uninitialized ∧
    ∀ j, (name, j) ∉ (applicatorCall reSearch pairs module).invocations := by
  have hfm : firstMatch reSearch pairs name = none :=
    (firstMatch_eq_none reSearch pairs name).mpr hnomatch
  rw [applicatorCall_params, applicatorCall_uninitialized,
    applicatorCall_invocations]
  refine ⟨?_, ?_, ?_⟩
  · exact List.mem_map.mpr ⟨(name, t), hmem, by simp [withInit, hfm]⟩
  · simp only [unmatchedNames]
    exact List.mem_filterMap.mpr ⟨(name, t), hmem, by simp [hfm]⟩
  · intro j hj
    obtain ⟨p, hp, hinv⟩ := List.mem_filterMap.mp hj
    simp only [invOf] at hinv
    cases hfm' : firstMatch reSearch pairs p.1 with
    | none => rw [hfm'] at hinv; simp at hinv
    | some r =>
      rw [hfm'] at hinv
      simp only [Option.map_some', Option.some.injEq] at hinv
      have hp1 : p.1 = name := congrArg Prod.fst hinv
      rw [hp1, hfm] at hfm'
      exact Option.noConfusion hfm'

theorem C4_unmatched_unchanged_witness :
    ((("layer.bias", 5) ∈ [("layer.bias", (5 : Nat)), ("layer.weight", 7)]) ∧
     (∀ pr ∈ [("weight", fun t : Nat => t + 1)],
       searchSubstring pr.1 "layer.bias" = false)) ∧
    (("layer.bias", 5) ∈
      (applicatorCall searchSubstring [("weight", fun t : Nat => t + 1)]
        [("layer.bias", 5), ("layer.weight", 7)]).params ∧
    "layer.bias" ∈
      (applicatorCall searchSubstring [("weight", fun t : Nat => t + 1)]
        [("layer.bias", 5), ("layer.weight", 7)]).uninitialized ∧
    ∀ j, ("layer.bias", j) ∉
      (applicatorCall searchSubstring [("weight", fun t : Nat => t + 1)]
        [("layer.bias", 5), ("layer.weight", 7)]).invocations) :=
  ⟨⟨by decide, by decide⟩,
   C4_unmatched_unchanged searchSubstring [("weight", fun t : Nat => t + 1)]
     [("layer.bias", 5), ("layer.weight", 7)] "layer.bias" 5
     (by decide) (by decide)⟩

theorem invocation_names_sublist (reSearch : String → String → Bool)
    (pairs : List (String × (T → T))) (module : List (String × T)) :
    ((module.filterMap (invOf reSearch pairs)).map Prod.fst).Sublist
      (module.map Prod.fst) := by
  induction module with
  | nil => simp
  | cons p rest ih =>
    cases h : firstMatch reSearch pairs p.1 with
    | none =>
      rw [List.filterMap_cons, List.map_cons]
      simp only [invOf, h, Option.map_none']
      exact ih.cons _
    | some r =>
      rw [List.filterMap_cons, List.map_cons]
      simp only [invOf, h, Option.map_some']
      rw [List.map_cons]
      exact ih.cons₂ _

/-- Claim C5: in one `__call__`, each named parameter has an initializer
invoked on it at most once — the invocation log contains no duplicate
parameter name — and the call's entire observable effect on the parameters
is the per-parameter update `withInit` (first matching initializer applied
in place, everything else untouched). -/
theorem C5_at_most_once (reSearch : String → String → Bool)
    (pairs : List (String × (T → T))) (module : List (String × T))
    (hnodup : (module.map Prod.fst).Nodup) :
    ((applicatorCall reSearch pairs module).invocations.map Prod.fst).Nodup ∧
    (applicatorCall reSearch pairs module).params =
      module.map (withInit reSearch pairs) := by
  rw [applicatorCall_invocations, applicatorCall_params]
  exact ⟨hnodup.sublist (invocation_names_sublist reSearch pairs module), rfl⟩

theorem C5_at_most_once_witness :
    (([("layer.weight", (0 : Nat)), ("layer.bias", 5)].map Prod.fst).Nodup) ∧
    (((applicatorCall searchSubstring
        [("e", fun t : Nat => t + 10), ("weight", fun t => t + 20)]
        [("layer.weight", 0), ("layer.bias", 5)]).invocations.map
          Prod.fst).Nodup ∧
    (applicatorCall searchSubstring
        [("e", fun t : Nat => t + 10), ("weight", fun t => t + 20)]
        [("layer.weight", 0), ("layer.bias", 5)]).params =
      [("layer.weight", 0), ("layer.bias", 5)].map
        (withInit searchSubstring
          [("e", fun t : Nat => t + 10), ("weight", fun t => t + 20)])) :=
  ⟨by decide,
   C5_at_most_once searchSubstring
     [("e", fun t : Nat => t + 10), ("weight", fun t => t + 20)]
     [("layer.weight", 0), ("layer.bias", 5)] (by decide)⟩

/-- Claim C7: a pattern of the applicator that matches no parameter name of
the module is still present in the `unused_regexes` set after all
parameters are processed, and is therefore reported by the unused-pattern
log loop; the condition is only logged, never an error. -/
theorem C7_unused_pattern_logged (reSearch : String → String → Bool)
    (pairs : List (String × (T → T))) (module : List (String × T))
    (p : String) (hp : p ∈ pairs.map Prod.fst)
    (hnomatch : ∀ q ∈ module, reSearch p q.1 = false) :
    p ∈ (applicatorCall reSearch pairs module).unused := by
  rw [applicatorCall_unused]
  apply List.mem_filter.mpr
  refine ⟨List.mem_dedup.mpr hp, ?_⟩
  have hnotfired : p ∉ firedPats reSearch pairs module := by
    intro hfired
    simp only [firedPats] at hfired
    obtain ⟨q, hq, hmap⟩ := List.mem_filterMap.mp hfired
    cases hfm : firstMatch reSearch pairs q.1 with
    | none => rw [hfm] at hmap; simp at hmap
    | some r =>
      rw [hfm] at hmap
      simp only [Option.map_some', Option.some.injEq] at hmap
      obtain ⟨-, -, hsearch, -⟩ :=
        firstMatch_eq_some reSearch pairs q.1 r.1 r.2.1 r.2.2 (by rw [hfm])
      rw [hmap] at hsearch
      rw [hnomatch q hq] at hsearch
      exact Bool.noConfusion hsearch
  simpa using hnotfired

theorem C7_unused_pattern_logged_witness :
    ("conv" ∈ ([("weight", fun t : Nat => t + 1), ("conv", fun t => t + 2)].map
        Prod.fst) ∧
     (∀ q ∈ [("layer.weight", (0 : Nat)), ("layer.bias", 5)],
       searchSubstring "conv" q.1 = false)) ∧
    "conv" ∈ (applicatorCall searchSubstring
      [("weight", fun t : Nat => t + 1), ("conv", fun t => t + 2)]
      [("layer.weight", 0), ("layer.bias", 5)]).unused :=
  ⟨⟨by decide, by decide⟩,
   C7_unused_pattern_logged searchSubstring
     [("weight", fun t : Nat => t + 1), ("conv", fun t => t + 2)]
     [("layer.weight", 0), ("layer.bias", 5)] "conv" (by decide) (by decide)⟩

/-- Claim C10 as stated is false at a concrete input: with pairs
`[("a", +1), ("p", +2), ("p", +3)]` and the single parameter `"pa"`, the
regex string `"p"` occurs in two different pairs and the parameter name
`"pa"` matches it, yet `"p"` IS reported as unused, because the
parameter's first matching pattern is the earlier-listed `"a"`, so no
`"p"` pair ever fires. -/
theorem C10_counterexample :
    searchSubstring "p" "pa" = true ∧
    (applicatorCall searchSubstring
      [("a", fun t : Nat => t + 1), ("p", fun t => t + 2),
       ("p", fun t => t + 3)]
      [("pa", 0)]).unused = ["p"] := ⟨rfl, rfl⟩

/-- Claim C10 (amended): unused-pattern tracking is keyed by the pattern
string, not the pair: when the same regex string occurs in two different
pairs and some parameter's FIRST matching pair carries that string, the
string is not reported as unused — covering both occurrences — even though
the later occurrence's pair is never invoked on any parameter. -/
theorem C10_unused_keyed_by_string (reSearch : String → String → Bool)
    (pairs : List (String × (T → T))) (module : List (String × T))
    (p : String) (i1 i2 : Nat) (h1 : i1 < pairs.length)
    (h2 : i2 < pairs.length) (hlt : i1 < i2)
    (hp1 : (pairs.get ⟨i1, h1⟩).1 = p) (hp2 : (pairs.get ⟨i2, h2⟩).1 = p)
    (name : String) (t : T) (i : Nat) (f : T → T)
    (hmem : (name, t) ∈ module)
    (hfired : firstMatch reSearch pairs name = some (i, p, f)) :
    p ∉ (applicatorCall reSearch pairs module).unused ∧
    ∀ nm j, (nm, j) ∈ (applicatorCall reSearch pairs module).invocations →
      j ≠ i2 := by
  constructor
  · rw [applicatorCall_unused]
    intro hmem'
    have hpred := (List.mem_filter.mp hmem').2
    have hfiredmem : p ∈ firedPats reSearch pairs module := by
      simp only [firedPats]
      exact List.mem_filterMap.mpr ⟨(name, t), hmem, by simp [hfired]⟩
    simp at hpred
    exact hpred hfiredmem
  · rw [applicatorCall_invocations]
    intro nm j hj hji2
    subst hji2
    obtain ⟨q, hq, hinv⟩ := List.mem_filterMap.mp hj
    simp only [invOf] at hinv
    cases hfm : firstMatch reSearch pairs q.1 with
    | none => rw [hfm] at hinv; simp at hinv
    | some r =>
      rw [hfm] at hinv
      simp only [Option.map_some', Option.some.injEq] at hinv
      have hr1 : r.1 = j := congrArg Prod.snd hinv
      obtain ⟨hlt', hget, hsearch, hbefore⟩ :=
        firstMatch_eq_some reSearch pairs q.1 r.1 r.2.1 r.2.2 (by rw [hfm])
      have hpatp : r.2.1 = p := by
        have e : pairs.get ⟨r.1, hlt'⟩ = pairs.get ⟨j, h2⟩ := by
          congr 1
          exact Fin.ext hr1
        have h' : (pairs.get ⟨j, h2⟩).1 = r.2.1 := by
          rw [← e, hget]
        rw [← h']
        exact hp2
      have hfalse := hbefore i1 (by omega) (by omega)
      have e1 : pairs.get ⟨i1, by omega⟩ = pairs.get ⟨i1, h1⟩ := rfl
      rw [e1, hp1] at hfalse
      rw [← hpatp] at hfalse
      rw [hsearch] at hfalse
      exact Bool.noConfusion hfalse

theorem C10_unused_keyed_by_string_witness :
    ((0 : Nat) < 1 ∧
     (([("p", fun t : Nat => t + 2), ("p", fun t => t + 3)].get
        ⟨0, by decide⟩).1 = "p") ∧
     (([("p", fun t : Nat => t + 2), ("p", fun t => t + 3)].get
        ⟨1, by decide⟩).1 = "p") ∧
     ("pa", (0 : Nat)) ∈ [("pa", (0 : Nat))]) ∧
    ("p" ∉ (applicatorCall searchSubstring
        [("p", fun t : Nat => t + 2), ("p", fun t => t + 3)]
        [("pa", 0)]).unused ∧
    ∀ nm j, (nm, j) ∈ (applicatorCall searchSubstring
        [("p", fun t : Nat => t + 2), ("p", fun t => t + 3)]
        [("pa", 0)]).invocations → j ≠ 1) :=
  ⟨⟨by decide, by decide, by decide, by decide⟩,
   C10_unused_keyed_by_string searchSubstring
     [("p", fun t : Nat => t + 2), ("p", fun t => t + 3)] [("pa", 0)]
     "p" 0 1 (by decide) (by decide) (by decide) (by decide) (by decide)
     "pa" 0 0 (fun t => t + 2) (by decide) rfl⟩

/-- Claim C6: constructing an `Initializer` from a name that is not
registered — whether as a bare string or as the `type` field of a
structured spec — fails with a configuration error and produces no
initializer object. -/
theorem C6_unknown_name {κ : Type} (emptyKwargs kwargs : κ) (name : String)
    (hunknown : name ∉ list_available) :
    (∃ msg, from_params emptyKwargs (InitParams.str name) =
      Except.error msg) ∧
    (∃ msg, from_params emptyKwargs (InitParams.dict name kwargs) =
      Except.error msg) := by
  have hlookup : initializerRegistry.lookup name = none := by
    apply List.lookup_eq_none_iff.mpr
    intro q hq
    have hne : name ≠ q.1 := by
      intro he
      exact hunknown (he ▸ List.mem_map.mpr ⟨q, hq, rfl⟩)
    simpa [bne] using hne
  constructor
  · refine ⟨name ++ " is not a registered name", ?_⟩
    simp only [from_params, by_name, hlookup]
    rfl
  · refine ⟨name ++ " not in acceptable choices", ?_⟩
    simp only [from_params, pop_choice, if_neg hunknown]
    rfl

theorem C6_unknown_name_witness :
    ("not_a_real_name" ∉ list_available) ∧
    ((∃ msg, from_params (0 : Nat) (InitParams.str "not_a_real_name") =
      Except.error msg) ∧
    (∃ msg, from_params (0 : Nat)
      (InitParams.dict "not_a_real_name" 1) = Except.error msg)) :=
  ⟨by decide, C6_unknown_name 0 1 "not_a_real_name" (by decide)⟩

/-- Claim C8: the initializer registry contains exactly the twelve
documented keys, in source order and without duplicates, and a wrapper
constructed over any registered routine, when invoked on a tensor,
forwards the tensor together with its bound keyword arguments to that
routine. -/
theorem C8_registry_contents {κ τ : Type} (kwargs : κ) (tensor : τ) :
    initializerRegistry.map Prod.fst =
      ["normal", "uniform", "orthogonal", "constant", "dirac",
       "xavier_normal", "xavier_uniform", "kaiming_normal",
       "kaiming_uniform", "sparse", "eye", "block_orthogonal"] ∧
    (initializerRegistry.map Prod.fst).Nodup ∧
    (∀ name fn, (name, fn) ∈ initializerRegistry →
      InitWrapper.call ⟨fn, kwargs⟩ tensor =
        TorchCall.mk fn tensor kwargs) := by
  refine ⟨rfl, by decide, ?_⟩
  intro name fn _
  rfl

theorem C8_registry_contents_witness :
    initializerRegistry.map Prod.fst =
      ["normal", "uniform", "orthogonal", "constant", "dirac",
       "xavier_normal", "xavier_uniform", "kaiming_normal",
       "kaiming_uniform", "sparse", "eye", "block_orthogonal"] ∧
    (initializerRegistry.map Prod.fst).Nodup ∧
    (∀ name fn, (name, fn) ∈ initializerRegistry →
      InitWrapper.call ⟨fn, ([] : List (String × Nat))⟩ (0 : Nat) =
        TorchCall.mk fn 0 []) :=
  C8_registry_contents [] 0
